import Mathlib

/-!
Verification of the profiler's log parsing / delta-aggregation engine
(src/report.rs) and of the collector's sampling synchronization loop
(src/main.rs), as a shallow embedding.

Conventions of the embedding:
* Rust `u64` counters are modelled as `Nat`; the analyzed runs keep counters far
  below 2^64 and debug Rust aborts on wrap, so no modular reduction is applied.
  Where a claim needs `post - pre` to be an actual difference, the field-wise
  `pre ≤ post` hypothesis of the claim is carried explicitly.
* Rust `f64` arithmetic on tick deltas and averages is modelled exactly over `ℚ`.
* `HashMap<String, V>` is modelled as an association list `List (String × V)`
  with key-replacing insertion (`mapInsert`) and lookup (`mapLookup`); the maps
  built by the program never rely on iteration order for the claims below
  except through commutative sums.
* A Rust `panic!` in the analyzer is modelled as `Except.error`.
-/

/-- Association-list lookup, the model of `HashMap::get` / indexing. -/
def mapLookup {α : Type} : List (String × α) → String → Option α
  | [], _ => none
  | (k', v) :: m, k => if k' = k then some v else mapLookup m k

/-- Key-replacing insertion, the model of `HashMap::insert` /
`entry(..).or_insert(..)` followed by a field update. -/
def mapInsert {α : Type} : List (String × α) → String → α → List (String × α)
  | [], k, v => [(k, v)]
  | (k', v') :: m, k, v => if k' = k then (k, v) :: m else (k', v') :: mapInsert m k v

/-- The key set of a map, the model of `HashMap::keys`. -/
def mapKeys {α : Type} (m : List (String × α)) : List String := m.map Prod.fst

theorem mapLookup_insert_self {α : Type} (m : List (String × α)) (k : String) (v : α) :
    mapLookup (mapInsert m k v) k = some v := by
  induction m with
  | nil => simp [mapInsert, mapLookup]
  | cons p m ih =>
    obtain ⟨k', v'⟩ := p
    by_cases h : k' = k
    · simp [mapInsert, mapLookup, h]
    · simp [mapInsert, mapLookup, h, ih]

theorem mapLookup_insert_ne {α : Type} (m : List (String × α)) (k k' : String) (v : α)
    (h : k ≠ k') : mapLookup (mapInsert m k v) k' = mapLookup m k' := by
  induction m with
  | nil => simp [mapInsert, mapLookup, h]
  | cons p m ih =>
    obtain ⟨k₀, v₀⟩ := p
    by_cases h0 : k₀ = k
    · subst h0
      simp [mapInsert, mapLookup, h]
    · by_cases h1 : k₀ = k'
      · simp [mapInsert, mapLookup, h0, h1, Ne.symm h]
      · simp [mapInsert, mapLookup, h0, h1, ih]

theorem mem_mapKeys_mapInsert {α : Type} (m : List (String × α)) (k : String) (v : α)
    (x : String) : x ∈ mapKeys (mapInsert m k v) ↔ x = k ∨ x ∈ mapKeys m := by
  induction m with
  | nil => simp [mapInsert, mapKeys]
  | cons p m ih =>
    obtain ⟨k₀, v₀⟩ := p
    by_cases h0 : k₀ = k
    · subst h0
      simp [mapInsert, mapKeys]
    · simp only [mapInsert, if_neg h0, mapKeys, List.map_cons, List.mem_cons]
      rw [show (mapInsert m k v).map Prod.fst = mapKeys (mapInsert m k v) from rfl] at *
      rw [ih]
      tauto

theorem nodup_mapKeys_mapInsert {α : Type} (m : List (String × α)) (k : String) (v : α)
    (h : (mapKeys m).Nodup) : (mapKeys (mapInsert m k v)).Nodup := by
  induction m with
  | nil => simp [mapInsert, mapKeys]
  | cons p m ih =>
    obtain ⟨k₀, v₀⟩ := p
    simp only [mapKeys, List.map_cons, List.nodup_cons] at h
    by_cases h0 : k₀ = k
    · subst h0
      simpa [mapInsert, mapKeys, List.nodup_cons] using h
    · simp only [mapInsert, if_neg h0, mapKeys, List.map_cons, List.nodup_cons]
      refine ⟨?_, ih h.2⟩
      intro hmem
      rcases (mem_mapKeys_mapInsert m k v k₀).mp hmem with h1 | h1
      · exact h0 h1
      · exact h.1 h1

theorem mapLookup_eq_none_iff {α : Type} (m : List (String × α)) (k : String) :
    mapLookup m k = none ↔ k ∉ mapKeys m := by
  induction m with
  | nil => simp [mapLookup, mapKeys]
  | cons p m ih =>
    obtain ⟨k₀, v₀⟩ := p
    by_cases h0 : k₀ = k
    · subst h0
      simp [mapLookup, mapKeys]
    · simp [mapLookup, mapKeys, h0, ih, Ne.symm h0]

/-! ## Kernel counter points and deltas (report.rs: `ProcReportPoint`,
`ProcReport`, `parse_proc`, `analyze_proc`) -/

/-- One per-CPU kernel-counter snapshot row (report.rs `ProcReportPoint`):
seven tick counters plus their sum, as stored by `parse_proc`. -/
structure ProcReportPoint where
  user : Nat
  nice : Nat
  system : Nat
  idle : Nat
  iowait : Nat
  irq : Nat
  softirq : Nat
  total : Nat
deriving DecidableEq

/-- The record `parse_proc` builds for one matching line (report.rs lines
90-109): the seven captured fields, with `total` computed as their sum in the
source's order `user + system + nice + idle + iowait + irq + softirq`.
The argument order is the capture order of the line grammar. -/
def mkProcPoint (user system nice idle iowait irq softirq : Nat) : ProcReportPoint :=
  { user := user
    nice := nice
    system := system
    idle := idle
    iowait := iowait
    irq := irq
    softirq := softirq
    total := user + system + nice + idle + iowait + irq + softirq }

/-- Per-CPU kernel-counter delta for one interval (report.rs `ProcReport`).
`load` is the `f64` load percentage, modelled over `ℚ`. -/
structure ProcReport where
  user : Nat
  nice : Nat
  system : Nat
  idle : Nat
  iowait : Nat
  irq : Nat
  softirq : Nat
  total : Nat
  load : ℚ
deriving DecidableEq

/-- report.rs `analyze_proc` (lines 122-134): field-wise subtraction of the two
snapshot points and the load percentage `100 * (1 - Δidle / Δtotal)`. -/
def analyze_proc (s e : ProcReportPoint) : ProcReport :=
  { user := e.user - s.user
    nice := e.nice - s.nice
    system := e.system - s.system
    idle := e.idle - s.idle
    iowait := e.iowait - s.iowait
    irq := e.irq - s.irq
    softirq := e.softirq - s.softirq
    total := e.total - s.total
    load := 100 * (1 - ((e.idle - s.idle : Nat) : ℚ) / ((e.total - s.total : Nat) : ℚ)) }

/-- C1: for every pair of kernel-counter snapshot points (as `parse_proc`
constructs them, so each `total` is the sum of the seven fields) with the
post-snapshot field-wise at least the pre-snapshot, the delta computed by
`analyze_proc` has `total` equal to the sum of its seven component deltas, its
`load` equals `100 * (1 - Δidle / Δtotal)`, and the load lies in `[0, 100]`
whenever `Δtotal > 0`. -/
theorem analyze_proc_correct (s e : ProcReportPoint)
    (hs : s.total = s.user + s.system + s.nice + s.idle + s.iowait + s.irq + s.softirq)
    (he : e.total = e.user + e.system + e.nice + e.idle + e.iowait + e.irq + e.softirq)
    (hle : s.user ≤ e.user ∧ s.nice ≤ e.nice ∧ s.system ≤ e.system ∧ s.idle ≤ e.idle ∧
      s.iowait ≤ e.iowait ∧ s.irq ≤ e.irq ∧ s.softirq ≤ e.softirq) :
    (analyze_proc s e).total =
      (analyze_proc s e).user + (analyze_proc s e).nice + (analyze_proc s e).system +
      (analyze_proc s e).idle + (analyze_proc s e).iowait + (analyze_proc s e).irq +
      (analyze_proc s e).softirq ∧
    (analyze_proc s e).load =
      100 * (1 - ((analyze_proc s e).idle : ℚ) / ((analyze_proc s e).total : ℚ)) ∧
    (0 < (analyze_proc s e).total →
      0 ≤ (analyze_proc s e).load ∧ (analyze_proc s e).load ≤ 100) := by
  obtain ⟨h1, h2, h3, h4, h5, h6, h7⟩ := hle
  refine ⟨?_, rfl, ?_⟩
  · simp only [analyze_proc]
    omega
  · intro hpos
    simp only [analyze_proc] at hpos ⊢
    have hidle : e.idle - s.idle ≤ e.total - s.total := by omega
    have hq : (0 : ℚ) < ((e.total - s.total : Nat) : ℚ) := by exact_mod_cast hpos
    have hx0 : (0 : ℚ) ≤ ((e.idle - s.idle : Nat) : ℚ) / ((e.total - s.total : Nat) : ℚ) :=
      div_nonneg (by positivity) (le_of_lt hq)
    have hx1 : ((e.idle - s.idle : Nat) : ℚ) / ((e.total - s.total : Nat) : ℚ) ≤ 1 :=
      (div_le_one hq).mpr (by exact_mod_cast hidle)
    constructor
    · linarith
    · linarith

/-- Witness for C1 at a concrete pair of snapshot points: pre all-ones
(total 7), post with idle 5 and the rest 2 (total 17), giving deltas
1,1,1,4,1,1,1, total 10 and load 60. -/
theorem analyze_proc_correct_witness :
    ((⟨1, 1, 1, 1, 1, 1, 1, 7⟩ : ProcReportPoint).total =
      1 + 1 + 1 + 1 + 1 + 1 + 1) ∧
    ((⟨2, 2, 2, 5, 2, 2, 2, 17⟩ : ProcReportPoint).total =
      2 + 2 + 2 + 5 + 2 + 2 + 2) ∧
    ((1 ≤ 2 ∧ 1 ≤ 2 ∧ 1 ≤ 2 ∧ 1 ≤ 5 ∧ 1 ≤ 2 ∧ 1 ≤ 2 ∧ (1 : Nat) ≤ 2) ∧
    ((analyze_proc ⟨1, 1, 1, 1, 1, 1, 1, 7⟩ ⟨2, 2, 2, 5, 2, 2, 2, 17⟩).total =
      (analyze_proc ⟨1, 1, 1, 1, 1, 1, 1, 7⟩ ⟨2, 2, 2, 5, 2, 2, 2, 17⟩).user +
      (analyze_proc ⟨1, 1, 1, 1, 1, 1, 1, 7⟩ ⟨2, 2, 2, 5, 2, 2, 2, 17⟩).nice +
      (analyze_proc ⟨1, 1, 1, 1, 1, 1, 1, 7⟩ ⟨2, 2, 2, 5, 2, 2, 2, 17⟩).system +
      (analyze_proc ⟨1, 1, 1, 1, 1, 1, 1, 7⟩ ⟨2, 2, 2, 5, 2, 2, 2, 17⟩).idle +
      (analyze_proc ⟨1, 1, 1, 1, 1, 1, 1, 7⟩ ⟨2, 2, 2, 5, 2, 2, 2, 17⟩).iowait +
      (analyze_proc ⟨1, 1, 1, 1, 1, 1, 1, 7⟩ ⟨2, 2, 2, 5, 2, 2, 2, 17⟩).irq +
      (analyze_proc ⟨1, 1, 1, 1, 1, 1, 1, 7⟩ ⟨2, 2, 2, 5, 2, 2, 2, 17⟩).softirq ∧
    (analyze_proc ⟨1, 1, 1, 1, 1, 1, 1, 7⟩ ⟨2, 2, 2, 5, 2, 2, 2, 17⟩).load =
      100 * (1 - ((analyze_proc ⟨1, 1, 1, 1, 1, 1, 1, 7⟩ ⟨2, 2, 2, 5, 2, 2, 2, 17⟩).idle : ℚ) /
        ((analyze_proc ⟨1, 1, 1, 1, 1, 1, 1, 7⟩ ⟨2, 2, 2, 5, 2, 2, 2, 17⟩).total : ℚ)) ∧
    (0 < (analyze_proc ⟨1, 1, 1, 1, 1, 1, 1, 7⟩ ⟨2, 2, 2, 5, 2, 2, 2, 17⟩).total →
      0 ≤ (analyze_proc ⟨1, 1, 1, 1, 1, 1, 1, 7⟩ ⟨2, 2, 2, 5, 2, 2, 2, 17⟩).load ∧
      (analyze_proc ⟨1, 1, 1, 1, 1, 1, 1, 7⟩ ⟨2, 2, 2, 5, 2, 2, 2, 17⟩).load ≤ 100))) :=
  ⟨by decide, by decide, by decide,
    analyze_proc_correct ⟨1, 1, 1, 1, 1, 1, 1, 7⟩ ⟨2, 2, 2, 5, 2, 2, 2, 17⟩
      (by decide) (by decide) (by decide)⟩

/-! ## Log-entry elapsed time (main.rs `process`, report.rs `get_report`) -/

/-- Rust `std::time::Duration`, modelled by its total length in milliseconds. -/
structure RDuration where
  millis : Nat
deriving DecidableEq

/-- `Duration::from_secs`. -/
def durationFromSecs (s : Nat) : RDuration := ⟨s * 1000⟩

/-- Collector side (main.rs line 96): the `time` attribute written into a log
entry is the elapsed time in whole milliseconds (`elapsed.as_millis()`). -/
def collectorTimeAttr (elapsedMillis : Nat) : Nat := elapsedMillis

/-- Analyzer side (report.rs line 220): the `time` stored in a Report Entry is
`Duration::from_secs` of the parsed decimal `time` attribute. -/
def reportEntryTimeOfAttr (attr : Nat) : RDuration := durationFromSecs attr

/-- C2 (code bug): the collector writes the `time` attribute in milliseconds,
but the analyzer rebuilds it with `Duration::from_secs`, so a log entry whose
attribute text is `1000` (one second of elapsed time) is stored as a duration
of 1000 seconds = 1000000 ms, not the 1000 ms the claim (and the collector's
own unit) require. -/
theorem entry_time_unit_mismatch :
    reportEntryTimeOfAttr (collectorTimeAttr 1000) = ⟨1000000⟩ ∧
    reportEntryTimeOfAttr (collectorTimeAttr 1000) ≠ ⟨1000⟩ := by
  constructor
  · rfl
  · decide

/-! ## Per-entry kernel delta construction (report.rs `get_report`,
lines 198-207): C6 and C10 -/

/-- The per-entry kernel-delta map construction inside `get_report` (report.rs
lines 201-207): iterate over the pre-snapshot's CPU entries; a CPU key missing
from the post-snapshot is a panic (modelled as `Except.error`); otherwise the
pre/post points are paired through `analyze_proc`.  A key present only in the
post-snapshot is never visited. -/
def analyzeProcPairs (pe : List (String × ProcReportPoint)) :
    List (String × ProcReportPoint) → Except String (List (String × ProcReport))
  | [] => Except.ok []
  | (cpu, pt) :: rest =>
    match mapLookup pe cpu with
    | none => Except.error ("CPU " ++ cpu ++ " not found in proc_end")
    | some pt2 =>
      match analyzeProcPairs pe rest with
      | Except.error msg => Except.error msg
      | Except.ok m => Except.ok ((cpu, analyze_proc pt pt2) :: m)

/-- C6: if some CPU key of the pre-sleep snapshot is absent from the post-sleep
snapshot, the per-entry delta construction fails with an error (the key is
never silently dropped). -/
theorem proc_missing_cpu_fatal (ps pe : List (String × ProcReportPoint)) (k : String)
    (hk : k ∈ mapKeys ps) (hmiss : mapLookup pe k = none) :
    ∃ msg, analyzeProcPairs pe ps = Except.error msg := by
  induction ps with
  | nil => simp [mapKeys] at hk
  | cons p rest ih =>
    obtain ⟨cpu, pt⟩ := p
    simp only [mapKeys, List.map_cons, List.mem_cons] at hk
    cases hlook : mapLookup pe cpu with
    | none => exact ⟨"CPU " ++ cpu ++ " not found in proc_end", by simp [analyzeProcPairs, hlook]⟩
    | some pt2 =>
      have hk' : k ∈ mapKeys rest := by
        rcases hk with h | h
        · subst h
          rw [hlook] at hmiss
          cases hmiss
        · exact h
      obtain ⟨msg, hmsg⟩ := ih hk'
      exact ⟨msg, by simp [analyzeProcPairs, hlook, hmsg]⟩

/-- Witness for C6: pre-snapshot has CPUs 0 and 1, post-snapshot only CPU 0. -/
theorem proc_missing_cpu_fatal_witness :
    ("1" ∈ mapKeys [("0", mkProcPoint 1 1 1 1 1 1 1), ("1", mkProcPoint 1 1 1 1 1 1 1)]) ∧
    (mapLookup [("0", mkProcPoint 2 2 2 2 2 2 2)] "1" = none) ∧
    ∃ msg,
      analyzeProcPairs [("0", mkProcPoint 2 2 2 2 2 2 2)]
        [("0", mkProcPoint 1 1 1 1 1 1 1), ("1", mkProcPoint 1 1 1 1 1 1 1)] =
        Except.error msg :=
  ⟨by decide, by decide,
    proc_missing_cpu_fatal
      [("0", mkProcPoint 1 1 1 1 1 1 1), ("1", mkProcPoint 1 1 1 1 1 1 1)]
      [("0", mkProcPoint 2 2 2 2 2 2 2)] "1" (by decide) (by decide)⟩

/-- C10: when every pre-snapshot CPU key is present in the post-snapshot, the
per-entry delta construction succeeds and its key set is exactly the
pre-snapshot's key set; a key present only in the post-snapshot is silently
omitted, with no error. -/
theorem proc_delta_keys_eq_pre (ps pe : List (String × ProcReportPoint))
    (h : ∀ k ∈ mapKeys ps, (mapLookup pe k).isSome = true) :
    ∃ m, analyzeProcPairs pe ps = Except.ok m ∧ mapKeys m = mapKeys ps := by
  induction ps with
  | nil => exact ⟨[], rfl, rfl⟩
  | cons p rest ih =>
    obtain ⟨cpu, pt⟩ := p
    have hcpu : (mapLookup pe cpu).isSome = true := h cpu (by simp [mapKeys])
    cases hlook : mapLookup pe cpu with
    | none => rw [hlook] at hcpu; cases hcpu
    | some pt2 =>
      obtain ⟨m, hm, hkeys⟩ := ih (fun k hk => h k (by simp [mapKeys] at hk ⊢; right; exact hk))
      refine ⟨(cpu, analyze_proc pt pt2) :: m, ?_, ?_⟩
      · simp [analyzeProcPairs, hlook, hm]
      · simp [mapKeys] at hkeys ⊢
        exact hkeys

/-- Witness for C10: pre-snapshot has CPU 0 only, post-snapshot has CPUs 0 and
1; the delta map keeps exactly key 0 and drops key 1 without error. -/
theorem proc_delta_keys_eq_pre_witness :
    (∀ k ∈ mapKeys [("0", mkProcPoint 1 1 1 1 1 1 1)],
      (mapLookup [("0", mkProcPoint 2 2 2 2 2 2 2), ("1", mkProcPoint 3 3 3 3 3 3 3)] k).isSome
        = true) ∧
    ∃ m,
      analyzeProcPairs [("0", mkProcPoint 2 2 2 2 2 2 2), ("1", mkProcPoint 3 3 3 3 3 3 3)]
        [("0", mkProcPoint 1 1 1 1 1 1 1)] = Except.ok m ∧
      mapKeys m = mapKeys [("0", mkProcPoint 1 1 1 1 1 1 1)] :=
  ⟨by decide,
    proc_delta_keys_eq_pre [("0", mkProcPoint 1 1 1 1 1 1 1)]
      [("0", mkProcPoint 2 2 2 2 2 2 2), ("1", mkProcPoint 3 3 3 3 3 3 3)] (by decide)⟩

/-! ## Hardware counter parsing and aggregation
(report.rs `PerfReport`, `parse_and_analyze_perf`): C4 and C7 -/

/-- Per-CPU hardware counter record (report.rs `PerfReport`). -/
structure PerfReport where
  cycles : Nat
  context_switches : Nat
deriving DecidableEq

/-- The platform feature flag (`android` / `ubuntu` cargo features) that selects
the hardware-counter line grammar and the recognized cycles event name. -/
inductive Platform where
  | android : Platform
  | ubuntu : Platform
deriving DecidableEq

/-- The platform's recognized cycles event name (report.rs lines 157-165). -/
def cyclesEventName : Platform → String
  | Platform.android => "cpu-cycles"
  | Platform.ubuntu => "cycles"

/-- One matched hardware-counter line, after the platform regex has extracted
the three logical capture fields (CPU key, numeric value, event name); `none`
stands for a line the regex does not match, which the loop skips. -/
abbrev PerfLine := Option (String × Nat × String)

/-- Processing of one matched line inside `parse_and_analyze_perf` (report.rs
lines 148-172): fetch-or-create the CPU's record, then store the value into the
field selected by the event name; an unrecognized event name is a panic,
modelled as `Except.error`. -/
def perfProcessLine (plat : Platform) (m : List (String × PerfReport))
    (cpu : String) (value : Nat) (event : String) :
    Except String (List (String × PerfReport)) :=
  let cur := (mapLookup m cpu).getD ⟨0, 0⟩
  if event = cyclesEventName plat then
    Except.ok (mapInsert m cpu ⟨value, cur.context_switches⟩)
  else if event = "context-switches" then
    Except.ok (mapInsert m cpu ⟨cur.cycles, value⟩)
  else
    Except.error ("Unknown event: " ++ event)

/-- The line loop of `parse_and_analyze_perf` (report.rs lines 139-173), over
the sequence of per-line regex results. -/
def perfParseLines (plat : Platform) :
    List PerfLine → List (String × PerfReport) →
      Except String (List (String × PerfReport))
  | [], m => Except.ok m
  | none :: ls, m => perfParseLines plat ls m
  | some (cpu, v, ev) :: ls, m =>
    match perfProcessLine plat m cpu v ev with
    | Except.error msg => Except.error msg
    | Except.ok m2 => perfParseLines plat ls m2

/-- One step of the aggregation loop (report.rs lines 175-186): read the
current values of `cpu` and of `"all"` (creating `"all"` at zero if missing)
and add the former into the latter. -/
def perfAggStep (acc : List (String × PerfReport)) (cpu : String) :
    List (String × PerfReport) :=
  let r := (mapLookup acc cpu).getD ⟨0, 0⟩
  let al := (mapLookup acc "all").getD ⟨0, 0⟩
  mapInsert acc "all" ⟨al.cycles + r.cycles, al.context_switches + r.context_switches⟩

/-- The aggregation loop of `parse_and_analyze_perf` (report.rs lines 175-186):
fold over the snapshot of the map's keys taken before the loop. -/
def perfAggregate (m : List (String × PerfReport)) : List (String × PerfReport) :=
  (mapKeys m).foldl perfAggStep m

/-- report.rs `parse_and_analyze_perf` (lines 136-189): parse the matched
lines, then add every originally-present CPU's values into the `"all"`
record. -/
def parse_and_analyze_perf (plat : Platform) (lines : List PerfLine) :
    Except String (List (String × PerfReport)) :=
  match perfParseLines plat lines [] with
  | Except.error msg => Except.error msg
  | Except.ok m => Except.ok (perfAggregate m)

theorem perfProcessLine_ok_insert (plat : Platform) (m : List (String × PerfReport))
    (cpu : String) (v : Nat) (ev : String) (m2 : List (String × PerfReport))
    (h : perfProcessLine plat m cpu v ev = Except.ok m2) :
    ∃ r, m2 = mapInsert m cpu r := by
  unfold perfProcessLine at h
  split at h
  · exact ⟨_, (Except.ok.inj h).symm⟩
  · split at h
    · exact ⟨_, (Except.ok.inj h).symm⟩
    · cases h

theorem perfParseLines_nodupKeys (plat : Platform) :
    ∀ (lines : List PerfLine) (m m' : List (String × PerfReport)),
      perfParseLines plat lines m = Except.ok m' → (mapKeys m).Nodup → (mapKeys m').Nodup := by
  intro lines
  induction lines with
  | nil =>
    intro m m' h hnd
    cases h
    exact hnd
  | cons l ls ih =>
    intro m m' h hnd
    cases l with
    | none => exact ih m m' h hnd
    | some t =>
      obtain ⟨cpu, v, ev⟩ := t
      simp only [perfParseLines] at h
      cases hp : perfProcessLine plat m cpu v ev with
      | error msg => rw [hp] at h; cases h
      | ok m2 =>
        rw [hp] at h
        obtain ⟨r, hr⟩ := perfProcessLine_ok_insert plat m cpu v ev m2 hp
        exact ih m2 m' h (hr ▸ nodup_mapKeys_mapInsert m cpu r hnd)

/-- The aggregation loop invariant: folding `perfAggStep` over keys that are
all distinct from `"all"`, starting from an accumulator that already has an
`"all"` record and agrees with the reference map `m` on every other key, adds
the `m`-values of those keys into the `"all"` record. -/
theorem perfAgg_fold (m : List (String × PerfReport)) (ks : List String)
    (hks : ∀ k ∈ ks, k ≠ "all") :
    ∀ (acc : List (String × PerfReport)) (a : PerfReport),
      mapLookup acc "all" = some a →
      (∀ k, k ≠ "all" → mapLookup acc k = mapLookup m k) →
      mapLookup (ks.foldl perfAggStep acc) "all" =
        some ⟨a.cycles + (ks.map fun k => ((mapLookup m k).getD ⟨0, 0⟩).cycles).sum,
          a.context_switches +
            (ks.map fun k => ((mapLookup m k).getD ⟨0, 0⟩).context_switches).sum⟩ := by
  induction ks with
  | nil =>
    intro acc a hall _
    simpa using hall
  | cons k ks ih =>
    intro acc a hall hagree
    have hk : k ≠ "all" := hks k (List.mem_cons_self k ks)
    have hks' : ∀ x ∈ ks, x ≠ "all" := fun x hx => hks x (List.mem_cons_of_mem k hx)
    have hstep : perfAggStep acc k =
        mapInsert acc "all"
          ⟨a.cycles + ((mapLookup m k).getD ⟨0, 0⟩).cycles,
            a.context_switches + ((mapLookup m k).getD ⟨0, 0⟩).context_switches⟩ := by
      unfold perfAggStep
      rw [hagree k hk, hall]
      rfl
    have hall' : mapLookup (perfAggStep acc k) "all" =
        some ⟨a.cycles + ((mapLookup m k).getD ⟨0, 0⟩).cycles,
          a.context_switches + ((mapLookup m k).getD ⟨0, 0⟩).context_switches⟩ := by
      rw [hstep]
      exact mapLookup_insert_self _ _ _
    have hagree' : ∀ x, x ≠ "all" → mapLookup (perfAggStep acc k) x = mapLookup m x := by
      intro x hx
      rw [hstep, mapLookup_insert_ne _ _ _ _ (Ne.symm hx)]
      exact hagree x hx
    have := ih hks' (perfAggStep acc k) _ hall' hagree'
    simp only [List.foldl_cons, List.map_cons, List.sum_cons]
    rw [this]
    simp only [Option.some.injEq, PerfReport.mk.injEq]
    omega

/-- With no duplicate keys, reading every key of a map back through `mapLookup`
recovers exactly its list of values. -/
theorem mapLookup_keys_map {α : Type} (d : α) :
    ∀ (m : List (String × α)), (mapKeys m).Nodup →
      ((mapKeys m).map fun k => (mapLookup m k).getD d) = m.map Prod.snd := by
  intro m
  induction m with
  | nil => intro _; rfl
  | cons p t ih =>
    intro hnd
    obtain ⟨k, v⟩ := p
    simp only [mapKeys, List.map_cons, List.nodup_cons] at hnd
    simp only [mapKeys, List.map_cons]
    have hhead : (mapLookup ((k, v) :: t) k).getD d = v := by simp [mapLookup]
    rw [hhead]
    congr 1
    have : ∀ x ∈ t.map Prod.fst, (mapLookup ((k, v) :: t) x).getD d = (mapLookup t x).getD d := by
      intro x hx
      have hxk : ¬ k = x := fun h => hnd.1 (h ▸ hx)
      simp [mapLookup, hxk]
    rw [List.map_congr_left this]
    exact ih hnd.2

/-- C4 counterexample: for the empty hardware-counter text block (no matching
lines) the parsed per-CPU map is empty — in particular it contains no `"all"`
key — yet the map returned by `parse_and_analyze_perf` contains no `"all"`
record at all, because the aggregation loop iterates over the (empty) key
snapshot. -/
theorem perf_all_aggregation_empty_counterexample :
    perfParseLines Platform.ubuntu [] [] = Except.ok [] ∧
    mapLookup ([] : List (String × PerfReport)) "all" = none ∧
    parse_and_analyze_perf Platform.ubuntu [] = Except.ok [] ∧
    mapLookup (perfAggregate ([] : List (String × PerfReport))) "all" = none :=
  ⟨rfl, rfl, rfl, rfl⟩

/-- C4 (amended with nonemptiness): for every hardware-counter text block whose
parsed per-CPU map is nonempty and contains no `"all"` key of its own, the map
returned by `parse_and_analyze_perf` contains an `"all"` record whose cycles
value is the sum of the cycles of every non-aggregate CPU key and whose
context-switches value is the sum of their context-switch counts. -/
theorem perf_all_aggregation (plat : Platform) (lines : List PerfLine)
    (m : List (String × PerfReport))
    (hparse : perfParseLines plat lines [] = Except.ok m)
    (hne : m ≠ [])
    (hall : mapLookup m "all" = none) :
    parse_and_analyze_perf plat lines = Except.ok (perfAggregate m) ∧
    mapLookup (perfAggregate m) "all" =
      some ⟨(m.map fun p => p.2.cycles).sum, (m.map fun p => p.2.context_switches).sum⟩ := by
  have hnd : (mapKeys m).Nodup :=
    perfParseLines_nodupKeys plat lines [] m hparse (by simp [mapKeys])
  refine ⟨by simp [parse_and_analyze_perf, hparse], ?_⟩
  have hkeysne : ∀ k ∈ mapKeys m, k ≠ "all" := by
    intro k hkm heq
    exact ((mapLookup_eq_none_iff m "all").mp hall) (heq ▸ hkm)
  cases m with
  | nil => exact absurd rfl hne
  | cons p t =>
    obtain ⟨k0, v0⟩ := p
    have hndcons : k0 ∉ mapKeys t ∧ (mapKeys t).Nodup := by
      rw [show mapKeys ((k0, v0) :: t) = k0 :: mapKeys t from rfl, List.nodup_cons] at hnd
      exact hnd
    have hndt : (mapKeys t).Nodup := hndcons.2
    have hk0t : k0 ∉ mapKeys t := hndcons.1
    have hlk0 : mapLookup ((k0, v0) :: t) k0 = some v0 := by simp [mapLookup]
    have hstep0 : perfAggStep ((k0, v0) :: t) k0 =
        mapInsert ((k0, v0) :: t) "all" ⟨0 + v0.cycles, 0 + v0.context_switches⟩ := by
      unfold perfAggStep
      rw [hlk0, hall]
      rfl
    have hacc1all : mapLookup (perfAggStep ((k0, v0) :: t) k0) "all" =
        some ⟨v0.cycles, v0.context_switches⟩ := by
      rw [hstep0, mapLookup_insert_self]
      simp
    have hacc1agree : ∀ x, x ≠ "all" →
        mapLookup (perfAggStep ((k0, v0) :: t) k0) x = mapLookup ((k0, v0) :: t) x := by
      intro x hx
      rw [hstep0, mapLookup_insert_ne _ _ _ _ (Ne.symm hx)]
    have hfold := perfAgg_fold ((k0, v0) :: t) (mapKeys t)
      (fun k hk => hkeysne k (by simp only [mapKeys, List.map_cons, List.mem_cons]; right; exact hk))
      (perfAggStep ((k0, v0) :: t) k0) ⟨v0.cycles, v0.context_switches⟩ hacc1all hacc1agree
    have hconv : ∀ x ∈ mapKeys t,
        (mapLookup ((k0, v0) :: t) x).getD (⟨0, 0⟩ : PerfReport) =
          (mapLookup t x).getD ⟨0, 0⟩ := by
      intro x hx
      have hxk : ¬ k0 = x := fun h => hk0t (h ▸ hx)
      simp [mapLookup, hxk]
    have hlist : ((mapKeys t).map fun k => (mapLookup ((k0, v0) :: t) k).getD
        (⟨0, 0⟩ : PerfReport)) = t.map Prod.snd := by
      rw [List.map_congr_left hconv]
      exact mapLookup_keys_map _ t hndt
    have hlistc : ((mapKeys t).map fun k =>
        ((mapLookup ((k0, v0) :: t) k).getD (⟨0, 0⟩ : PerfReport)).cycles) =
        t.map fun p => p.2.cycles := by
      have h1 : ((mapKeys t).map fun k =>
          ((mapLookup ((k0, v0) :: t) k).getD (⟨0, 0⟩ : PerfReport)).cycles) =
          (((mapKeys t).map fun k => (mapLookup ((k0, v0) :: t) k).getD
            (⟨0, 0⟩ : PerfReport)).map PerfReport.cycles) := by
        rw [List.map_map]
        rfl
      rw [h1, hlist, List.map_map]
      rfl
    have hlists : ((mapKeys t).map fun k =>
        ((mapLookup ((k0, v0) :: t) k).getD (⟨0, 0⟩ : PerfReport)).context_switches) =
        t.map fun p => p.2.context_switches := by
      have h1 : ((mapKeys t).map fun k =>
          ((mapLookup ((k0, v0) :: t) k).getD (⟨0, 0⟩ : PerfReport)).context_switches) =
          (((mapKeys t).map fun k => (mapLookup ((k0, v0) :: t) k).getD
            (⟨0, 0⟩ : PerfReport)).map PerfReport.context_switches) := by
        rw [List.map_map]
        rfl
      rw [h1, hlist, List.map_map]
      rfl
    show mapLookup (perfAggregate ((k0, v0) :: t)) "all" = _
    unfold perfAggregate
    have hkeyscons : mapKeys ((k0, v0) :: t) = k0 :: mapKeys t := rfl
    rw [hkeyscons, List.foldl_cons, hfold, hlistc, hlists]
    simp [List.map_cons]

/-- Witness for C4 at a concrete ubuntu-format block with two CPU lines:
cycles 100 on the first CPU, 7 context switches on the second. -/
theorem perf_all_aggregation_witness :
    (perfParseLines Platform.ubuntu
      [some ("S0-C0", 100, "cycles"), some ("S0-C1", 7, "context-switches")] [] =
      Except.ok [("S0-C0", ⟨100, 0⟩), ("S0-C1", ⟨0, 7⟩)]) ∧
    ([("S0-C0", (⟨100, 0⟩ : PerfReport)), ("S0-C1", ⟨0, 7⟩)] ≠ []) ∧
    (mapLookup [("S0-C0", (⟨100, 0⟩ : PerfReport)), ("S0-C1", ⟨0, 7⟩)] "all" = none) ∧
    (parse_and_analyze_perf Platform.ubuntu
      [some ("S0-C0", 100, "cycles"), some ("S0-C1", 7, "context-switches")] =
      Except.ok (perfAggregate [("S0-C0", ⟨100, 0⟩), ("S0-C1", ⟨0, 7⟩)]) ∧
    mapLookup (perfAggregate [("S0-C0", (⟨100, 0⟩ : PerfReport)), ("S0-C1", ⟨0, 7⟩)]) "all" =
      some ⟨([("S0-C0", (⟨100, 0⟩ : PerfReport)), ("S0-C1", ⟨0, 7⟩)].map
          fun p => p.2.cycles).sum,
        ([("S0-C0", (⟨100, 0⟩ : PerfReport)), ("S0-C1", ⟨0, 7⟩)].map
          fun p => p.2.context_switches).sum⟩) :=
  ⟨rfl, by decide, rfl,
    perf_all_aggregation Platform.ubuntu
      [some ("S0-C0", 100, "cycles"), some ("S0-C1", 7, "context-switches")]
      [("S0-C0", ⟨100, 0⟩), ("S0-C1", ⟨0, 7⟩)] rfl (by decide) rfl⟩

theorem perfParseLines_error_of_unknown (plat : Platform) (cpu : String) (v : Nat)
    (event : String) (h1 : event ≠ cyclesEventName plat)
    (h2 : event ≠ "context-switches") :
    ∀ (lines : List PerfLine), some (cpu, v, event) ∈ lines →
      ∀ m, ∃ msg, perfParseLines plat lines m = Except.error msg := by
  intro lines
  induction lines with
  | nil =>
    intro h
    simp at h
  | cons l ls ih =>
    intro hmem m
    rcases List.mem_cons.mp hmem with hl | hl
    · subst hl
      simp only [perfParseLines]
      have hproc : perfProcessLine plat m cpu v event =
          Except.error ("Unknown event: " ++ event) := by
        simp [perfProcessLine, h1, h2]
      rw [hproc]
      exact ⟨_, rfl⟩
    · cases l with
      | none => exact ih hl m
      | some t =>
        obtain ⟨c2, v2, e2⟩ := t
        simp only [perfParseLines]
        cases hp : perfProcessLine plat m c2 v2 e2 with
        | error msg => exact ⟨msg, rfl⟩
        | ok m2 => exact ih hl m2

/-- C7: a matched hardware-counter line whose event name is neither the
platform's cycles event nor `"context-switches"` makes parsing of the whole
block fail (never silently ignored), while the two recognized event names store
the parsed value into the `cycles` and `context_switches` fields
respectively. -/
theorem perf_unknown_event_fatal (plat : Platform) (lines : List PerfLine)
    (cpu : String) (v : Nat) (event : String)
    (h1 : event ≠ cyclesEventName plat) (h2 : event ≠ "context-switches")
    (hmem : some (cpu, v, event) ∈ lines) :
    (∃ msg, perfParseLines plat lines [] = Except.error msg) ∧
    (∃ msg, parse_and_analyze_perf plat lines = Except.error msg) ∧
    (∀ (m : List (String × PerfReport)) (c : String) (val : Nat),
      ∃ m2, perfProcessLine plat m c val (cyclesEventName plat) = Except.ok m2 ∧
        ∃ r, mapLookup m2 c = some r ∧ r.cycles = val) ∧
    (∀ (m : List (String × PerfReport)) (c : String) (val : Nat),
      ∃ m2, perfProcessLine plat m c val "context-switches" = Except.ok m2 ∧
        ∃ r, mapLookup m2 c = some r ∧ r.context_switches = val) := by
  obtain ⟨msg, hmsg⟩ := perfParseLines_error_of_unknown plat cpu v event h1 h2 lines hmem []
  refine ⟨⟨msg, hmsg⟩, ⟨msg, by simp [parse_and_analyze_perf, hmsg]⟩, ?_, ?_⟩
  · intro m c val
    refine ⟨mapInsert m c ⟨val, ((mapLookup m c).getD ⟨0, 0⟩).context_switches⟩, ?_, ?_⟩
    · simp [perfProcessLine]
    · exact ⟨_, mapLookup_insert_self _ _ _, rfl⟩
  · intro m c val
    have hne : ("context-switches" : String) ≠ cyclesEventName plat := by
      cases plat <;> decide
    refine ⟨mapInsert m c ⟨((mapLookup m c).getD ⟨0, 0⟩).cycles, val⟩, ?_, ?_⟩
    · simp [perfProcessLine, hne]
    · exact ⟨_, mapLookup_insert_self _ _ _, rfl⟩

/-- Witness for C7: an ubuntu-format line with the unrecognized event
`"branches"`. -/
theorem perf_unknown_event_fatal_witness :
    (("branches" : String) ≠ cyclesEventName Platform.ubuntu) ∧
    (("branches" : String) ≠ "context-switches") ∧
    (some ("0", 5, "branches") ∈ [some (("0" : String), (5 : Nat), ("branches" : String))]) ∧
    ((∃ msg, perfParseLines Platform.ubuntu
        [some ("0", 5, "branches")] [] = Except.error msg) ∧
    (∃ msg, parse_and_analyze_perf Platform.ubuntu
        [some ("0", 5, "branches")] = Except.error msg) ∧
    (∀ (m : List (String × PerfReport)) (c : String) (val : Nat),
      ∃ m2, perfProcessLine Platform.ubuntu m c val (cyclesEventName Platform.ubuntu) =
          Except.ok m2 ∧
        ∃ r, mapLookup m2 c = some r ∧ r.cycles = val) ∧
    (∀ (m : List (String × PerfReport)) (c : String) (val : Nat),
      ∃ m2, perfProcessLine Platform.ubuntu m c val "context-switches" = Except.ok m2 ∧
        ∃ r, mapLookup m2 c = some r ∧ r.context_switches = val)) :=
  ⟨by decide, by decide, by decide,
    perf_unknown_event_fatal Platform.ubuntu [some ("0", 5, "branches")] "0" 5 "branches"
      (by decide) (by decide) (by decide)⟩

/-! ## CPU key ordering (report.rs `get_report`, lines 226-242): C3 -/

/-- UTF-8 encoded size in bytes of one character (how Rust's byte-based
`str::len` counts it). -/
def charUtf8Size (c : Char) : Nat :=
  if c.val ≤ 0x7F then 1 else if c.val ≤ 0x7FF then 2 else if c.val ≤ 0xFFFF then 3 else 4

/-- Rust `str::len`: the UTF-8 byte length of a string. -/
def strByteLen (s : String) : Nat := (s.data.map charUtf8Size).sum

/-- Code-point lexicographic comparison of character lists.  Byte-wise
comparison of UTF-8 encodings (Rust `str::cmp`) coincides with code-point
lexicographic order, so this models the comparator's `a.cmp(b)` branch. -/
def charListCompare : List Char → List Char → Ordering
  | [], [] => Ordering.eq
  | [], _ :: _ => Ordering.lt
  | _ :: _, [] => Ordering.gt
  | a :: as, b :: bs =>
    if a < b then Ordering.lt else if b < a then Ordering.gt else charListCompare as bs

theorem charListCompare_eq_iff : ∀ (x y : List Char),
    charListCompare x y = Ordering.eq ↔ x = y := by
  intro x
  induction x with
  | nil => intro y; cases y <;> simp [charListCompare]
  | cons a as ih =>
    intro y
    cases y with
    | nil => simp [charListCompare]
    | cons b bs =>
      rcases lt_trichotomy a b with h | h | h
      · have hn : charListCompare (a :: as) (b :: bs) = Ordering.lt := by
          simp [charListCompare, h]
        rw [hn]
        constructor
        · intro hc; exact absurd hc (by decide)
        · intro hc; injection hc with h1 _; exact absurd (h1 ▸ h) (lt_irrefl b)
      · subst h
        have hn : charListCompare (a :: as) (a :: bs) = charListCompare as bs := by
          simp [charListCompare]
        rw [hn, ih]
        simp
      · have hn : charListCompare (a :: as) (b :: bs) = Ordering.gt := by
          simp [charListCompare, h, asymm h]
        rw [hn]
        constructor
        · intro hc; exact absurd hc (by decide)
        · intro hc; injection hc with h1 _; exact absurd (h1 ▸ h) (lt_irrefl b)

theorem charListCompare_gt_iff : ∀ (x y : List Char),
    charListCompare x y = Ordering.gt ↔ charListCompare y x = Ordering.lt := by
  intro x
  induction x with
  | nil => intro y; cases y <;> simp [charListCompare]
  | cons a as ih =>
    intro y
    cases y with
    | nil => simp [charListCompare]
    | cons b bs =>
      rcases lt_trichotomy a b with h | h | h
      · simp [charListCompare, h, asymm h]
      · subst h
        simp [charListCompare, ih]
      · simp [charListCompare, h, asymm h]

theorem charListCompare_cons_lt_iff (a b : Char) (as bs : List Char) :
    charListCompare (a :: as) (b :: bs) = Ordering.lt ↔
      a < b ∨ (a = b ∧ charListCompare as bs = Ordering.lt) := by
  rcases lt_trichotomy a b with h | h | h
  · simp [charListCompare, h]
  · subst h
    simp [charListCompare]
  · simp [charListCompare, asymm h, h, ne_of_gt h]

theorem charListCompare_lt_trans : ∀ (x y z : List Char),
    charListCompare x y = Ordering.lt → charListCompare y z = Ordering.lt →
      charListCompare x z = Ordering.lt := by
  intro x
  induction x with
  | nil =>
    intro y z hxy hyz
    cases y with
    | nil => exact absurd hxy (by decide)
    | cons b bs =>
      cases z with
      | nil => simp [charListCompare] at hyz
      | cons c cs => simp [charListCompare]
  | cons a as ih =>
    intro y z hxy hyz
    cases y with
    | nil => simp [charListCompare] at hxy
    | cons b bs =>
      cases z with
      | nil => simp [charListCompare] at hyz
      | cons c cs =>
        rw [charListCompare_cons_lt_iff] at hxy hyz ⊢
        rcases hxy with h1 | ⟨h1, h1'⟩ <;> rcases hyz with h2 | ⟨h2, h2'⟩
        · exact Or.inl (lt_trans h1 h2)
        · exact Or.inl (lt_of_lt_of_eq h1 h2)
        · exact Or.inl (lt_of_eq_of_lt h1 h2)
        · exact Or.inr ⟨h1.trans h2, ih bs cs h1' h2'⟩

theorem charListCompare_le_trans (x y z : List Char)
    (h1 : charListCompare x y ≠ Ordering.gt) (h2 : charListCompare y z ≠ Ordering.gt) :
    charListCompare x z ≠ Ordering.gt := by
  cases hxy : charListCompare x y with
  | gt => exact absurd hxy h1
  | eq =>
    have hd := (charListCompare_eq_iff x y).mp hxy
    subst hd
    exact h2
  | lt =>
    cases hyz : charListCompare y z with
    | gt => exact absurd hyz h2
    | eq =>
      have hd := (charListCompare_eq_iff y z).mp hyz
      subst hd
      simp [hxy]
    | lt =>
      have := charListCompare_lt_trans x y z hxy hyz
      simp [this]

/-- The CPU-key comparator closure inside `get_report` (report.rs lines
228-240): `"all"` compares greater than everything, otherwise byte-shorter
strings compare smaller and equal-length keys compare lexicographically. -/
def cpuCompare (a b : String) : Ordering :=
  if a = "all" then Ordering.gt
  else if b = "all" then Ordering.lt
  else if strByteLen a < strByteLen b then Ordering.lt
  else if strByteLen b < strByteLen a then Ordering.gt
  else charListCompare a.data b.data

/-- Sortedness relation induced by `Vec::sort_by` with `cpuCompare`:
consecutive elements never compare `Greater`. -/
def cpuLe (a b : String) : Prop := cpuCompare a b ≠ Ordering.gt

theorem cpuLe_trans (a b c : String) (h1 : cpuLe a b) (h2 : cpuLe b c) : cpuLe a c := by
  unfold cpuLe cpuCompare at h1 h2 ⊢
  by_cases ha : a = "all"
  · rw [if_pos ha] at h1
    exact absurd rfl h1
  · rw [if_neg ha] at h1 ⊢
    by_cases hc : c = "all"
    · rw [if_pos hc]
      decide
    · rw [if_neg hc]
      by_cases hb : b = "all"
      · rw [if_pos hb] at h2
        exact absurd rfl h2
      · rw [if_neg hb] at h1
        rw [if_neg hb, if_neg hc] at h2
        rcases lt_trichotomy (strByteLen a) (strByteLen b) with l1 | l1 | l1
        · rcases lt_trichotomy (strByteLen b) (strByteLen c) with l2 | l2 | l2
          · rw [if_pos (lt_trans l1 l2)]; decide
          · rw [if_pos (lt_of_lt_of_eq l1 l2)]; decide
          · rw [if_neg (asymm l2), if_pos l2] at h2; exact absurd rfl h2
        · rcases lt_trichotomy (strByteLen b) (strByteLen c) with l2 | l2 | l2
          · rw [if_pos (lt_of_eq_of_lt l1 l2)]; decide
          · have lac : strByteLen a = strByteLen c := l1.trans l2
            rw [if_neg (by rw [lac]; exact lt_irrefl _),
              if_neg (by rw [lac]; exact lt_irrefl _)]
            rw [if_neg (by rw [l1]; exact lt_irrefl _),
              if_neg (by rw [l1]; exact lt_irrefl _)] at h1
            rw [if_neg (by rw [l2]; exact lt_irrefl _),
              if_neg (by rw [l2]; exact lt_irrefl _)] at h2
            exact charListCompare_le_trans _ _ _ h1 h2
          · rw [if_neg (asymm l2), if_pos l2] at h2; exact absurd rfl h2
        · rw [if_neg (asymm l1), if_pos l1] at h1; exact absurd rfl h1

theorem cpuCompare_gt_flip (a b : String) (hne : a ≠ b)
    (h : cpuCompare a b = Ordering.gt) : cpuLe b a := by
  unfold cpuLe
  unfold cpuCompare at h ⊢
  by_cases ha : a = "all"
  · have hb : ¬ b = "all" := fun hh => hne (ha.trans hh.symm)
    rw [if_neg hb, if_pos ha]
    decide
  · by_cases hb : b = "all"
    · rw [if_neg ha, if_pos hb] at h
      exact absurd h (by decide)
    · rw [if_neg ha, if_neg hb] at h
      rw [if_neg hb, if_neg ha]
      rcases lt_trichotomy (strByteLen a) (strByteLen b) with l | l | l
      · rw [if_pos l] at h
        exact absurd h (by decide)
      · rw [if_neg (by rw [l]; exact lt_irrefl _),
          if_neg (by rw [l]; exact lt_irrefl _)] at h
        rw [if_neg (by rw [l]; exact lt_irrefl _),
          if_neg (by rw [l]; exact lt_irrefl _)]
        have hlt := (charListCompare_gt_iff a.data b.data).mp h
        simp [hlt]
      · rw [if_pos l]
        decide

/-- The ordering the claim specifies on CPU keys: `"all"` last, byte-shorter
first, lexicographic tie-break on equal lengths. -/
def cpuKeyRel (a b : String) : Prop :=
  a ≠ "all" ∧ (b = "all" ∨ strByteLen a < strByteLen b ∨
    (strByteLen a = strByteLen b ∧ charListCompare a.data b.data = Ordering.lt))

theorem cpuKeyRel_of_le (a b : String) (hle : cpuLe a b) (hne : a ≠ b) : cpuKeyRel a b := by
  unfold cpuLe cpuCompare at hle
  by_cases ha : a = "all"
  · rw [if_pos ha] at hle
    exact absurd rfl hle
  · refine ⟨ha, ?_⟩
    by_cases hb : b = "all"
    · exact Or.inl hb
    · rw [if_neg ha, if_neg hb] at hle
      rcases lt_trichotomy (strByteLen a) (strByteLen b) with l | l | l
      · exact Or.inr (Or.inl l)
      · rw [if_neg (by rw [l]; exact lt_irrefl _),
          if_neg (by rw [l]; exact lt_irrefl _)] at hle
        cases hc : charListCompare a.data b.data with
        | lt => exact Or.inr (Or.inr ⟨l, rfl⟩)
        | eq =>
          have hdata := (charListCompare_eq_iff _ _).mp hc
          have hab : a = b := by
            cases a
            cases b
            exact congrArg String.mk hdata
          exact absurd hab hne
        | gt => exact absurd hc hle
      · rw [if_neg (asymm l), if_pos l] at hle
        exact absurd rfl hle

/-- Insertion step of the comparator sort used to model `Vec::sort_by` with the
`get_report` comparator.  On lists of distinct keys the comparator orders every
pair strictly, so every correct comparison sort produces the same output. -/
def insertCpu (a : String) : List String → List String
  | [] => [a]
  | b :: bs => if cpuCompare a b = Ordering.gt then b :: insertCpu a bs else a :: b :: bs

/-- The CPU key sort of `get_report` (report.rs lines 241-242). -/
def sortCpus : List String → List String
  | [] => []
  | a :: as => insertCpu a (sortCpus as)

theorem insertCpu_perm (a : String) (l : List String) :
    List.Perm (insertCpu a l) (a :: l) := by
  induction l with
  | nil => exact List.Perm.refl _
  | cons b bs ih =>
    by_cases h : cpuCompare a b = Ordering.gt
    · simp only [insertCpu, if_pos h]
      exact (ih.cons b).trans (List.Perm.swap a b bs)
    · simp only [insertCpu, if_neg h]
      exact List.Perm.refl _

theorem sortCpus_perm (l : List String) : List.Perm (sortCpus l) l := by
  induction l with
  | nil => exact List.Perm.refl _
  | cons a as ih => exact (insertCpu_perm a (sortCpus as)).trans (ih.cons a)

theorem pairwise_cpuLe_insertCpu (a : String) (l : List String)
    (hl : l.Pairwise cpuLe) (ha : a ∉ l) : (insertCpu a l).Pairwise cpuLe := by
  induction l with
  | nil => simp [insertCpu, List.Pairwise.nil]
  | cons b bs ih =>
    have hab : a ≠ b := fun h => ha (h ▸ List.mem_cons_self b bs)
    have habs : a ∉ bs := fun h => ha (List.mem_cons_of_mem b h)
    rcases List.pairwise_cons.mp hl with ⟨hb, hbs⟩
    by_cases h : cpuCompare a b = Ordering.gt
    · simp only [insertCpu, if_pos h]
      refine List.pairwise_cons.mpr ⟨?_, ih hbs habs⟩
      intro c hc
      rcases List.mem_cons.mp ((insertCpu_perm a bs).mem_iff.mp hc) with rfl | hcbs
      · exact cpuCompare_gt_flip c b hab h
      · exact hb c hcbs
    · simp only [insertCpu, if_neg h]
      refine List.pairwise_cons.mpr ⟨?_, hl⟩
      intro c hc
      rcases List.mem_cons.mp hc with rfl | hcbs
      · exact h
      · exact cpuLe_trans a b c h (hb c hcbs)

theorem pairwise_cpuLe_sortCpus (l : List String) (h : l.Nodup) :
    (sortCpus l).Pairwise cpuLe := by
  induction l with
  | nil => exact List.Pairwise.nil
  | cons a as ih =>
    rcases List.nodup_cons.mp h with ⟨hna, hnd⟩
    have hnotin : a ∉ sortCpus as := fun hm => hna ((sortCpus_perm as).mem_iff.mp hm)
    exact pairwise_cpuLe_insertCpu a (sortCpus as) (ih hnd) hnotin

/-- C3: sorting any list of distinct CPU keys with the `get_report` comparator
yields a permutation in which `"all"` comes last, byte-shorter keys precede
longer ones, and equal-length keys are in lexicographic order; in particular
`["0", "1", "10", "2", "all"]` sorts to `["0", "1", "2", "10", "all"]`. -/
theorem cpu_key_sort_correct (l : List String) (h : l.Nodup) :
    List.Perm (sortCpus l) l ∧
    (sortCpus l).Pairwise cpuKeyRel ∧
    sortCpus ["0", "1", "10", "2", "all"] = ["0", "1", "2", "10", "all"] := by
  refine ⟨sortCpus_perm l, ?_, by decide⟩
  have hnd : (sortCpus l).Nodup := (sortCpus_perm l).symm.nodup h
  have hle := pairwise_cpuLe_sortCpus l h
  exact (hle.and hnd).imp (fun hab => cpuKeyRel_of_le _ _ hab.1 hab.2)

/-- Witness for C3 at the claim's own example list. -/
theorem cpu_key_sort_correct_witness :
    (["0", "1", "10", "2", "all"] : List String).Nodup ∧
    (List.Perm (sortCpus ["0", "1", "10", "2", "all"]) ["0", "1", "10", "2", "all"] ∧
    (sortCpus ["0", "1", "10", "2", "all"]).Pairwise cpuKeyRel ∧
    sortCpus ["0", "1", "10", "2", "all"] = ["0", "1", "2", "10", "all"]) :=
  ⟨by decide, cpu_key_sort_correct ["0", "1", "10", "2", "all"] (by decide)⟩

/-! ## Reports and averaging (report.rs `ReportEntry`, `Report`,
`get_average_proc_load`): C5 -/

/-- One analyzed interval (report.rs `ReportEntry`). -/
structure ReportEntry where
  time : RDuration
  proc : List (String × ProcReport)
  perf : List (String × PerfReport)

/-- A fully analyzed log file (report.rs `Report`); the uuid is kept as its
text. -/
structure Report where
  id : String
  duration : RDuration
  interval : RDuration
  entries : List ReportEntry
  proc_cpus : List String
  perf_cpus : List String

/-- One iteration of the averaging loop of `get_average_proc_load` (report.rs
lines 257-262): when the entry's kernel map contains the CPU key, add its load
to the running total and bump the count; otherwise skip the entry. -/
def avgStep (cpu : String) (tc : ℚ × Nat) (en : ReportEntry) : ℚ × Nat :=
  match mapLookup en.proc cpu with
  | some pr => (tc.1 + pr.load, tc.2 + 1)
  | none => tc

/-- report.rs `get_average_proc_load` (lines 254-265): total of the loads of
the entries containing the key divided by their count (`f64` modelled as `ℚ`;
an empty count yields the model's `0 / 0 = 0` where the source's `f64`
division produces NaN). -/
def get_average_proc_load (r : Report) (cpu : String) : ℚ :=
  let tc := r.entries.foldl (avgStep cpu) ((0 : ℚ), (0 : Nat))
  tc.1 / (tc.2 : ℚ)

/-- The load values of exactly those entries whose kernel map contains the
given key: the claim's reference list for the arithmetic mean. -/
def presentLoads (entries : List ReportEntry) (cpu : String) : List ℚ :=
  entries.filterMap (fun en => (mapLookup en.proc cpu).map (fun pr => pr.load))

theorem avg_foldl (cpu : String) :
    ∀ (entries : List ReportEntry) (t : ℚ) (c : Nat),
      entries.foldl (avgStep cpu) (t, c) =
        (t + (presentLoads entries cpu).sum, c + (presentLoads entries cpu).length) := by
  intro entries
  induction entries with
  | nil => intro t c; simp [presentLoads]
  | cons en rest ih =>
    intro t c
    cases hl : mapLookup en.proc cpu with
    | none =>
      have hstep : avgStep cpu (t, c) en = (t, c) := by simp [avgStep, hl]
      have hpl : presentLoads (en :: rest) cpu = presentLoads rest cpu := by
        simp [presentLoads, hl]
      rw [List.foldl_cons, hstep, ih t c, hpl]
    | some pr =>
      have hstep : avgStep cpu (t, c) en = (t + pr.load, c + 1) := by simp [avgStep, hl]
      have hpl : presentLoads (en :: rest) cpu = pr.load :: presentLoads rest cpu := by
        simp [presentLoads, hl]
      rw [List.foldl_cons, hstep, ih (t + pr.load) (c + 1), hpl]
      simp only [List.sum_cons, List.length_cons, Prod.mk.injEq]
      constructor
      · ring
      · omega

/-- A kernel delta record carrying only a load value (the other fields are
irrelevant to averaging). -/
def loadOnlyProcReport (q : ℚ) : ProcReport := ⟨0, 0, 0, 0, 0, 0, 0, 0, q⟩

/-- A three-entry report in which CPU key `"0"` appears only in the first and
third entries, with loads 40 and 60. -/
def exampleSparseReport : Report :=
  { id := "test"
    duration := ⟨3000⟩
    interval := ⟨1000⟩
    entries :=
      [ { time := ⟨0⟩, proc := [("0", loadOnlyProcReport 40)], perf := [] }
      , { time := ⟨1000⟩, proc := [("1", loadOnlyProcReport 10)], perf := [] }
      , { time := ⟨2000⟩, proc := [("0", loadOnlyProcReport 60)], perf := [] } ]
    proc_cpus := ["0", "1"]
    perf_cpus := [] }

/-- C5: the average load of a CPU key is the arithmetic mean over exactly the
entries whose kernel map contains that key — entries lacking the key count
neither in the sum nor in the denominator — and in particular the three-entry
report where the key appears twice with loads 40 and 60 averages to 50,
not 33.3. -/
theorem average_proc_load_correct (r : Report) (cpu : String) :
    get_average_proc_load r cpu =
      (presentLoads r.entries cpu).sum / ((presentLoads r.entries cpu).length : ℚ) ∧
    get_average_proc_load exampleSparseReport "0" = 50 := by
  constructor
  · unfold get_average_proc_load
    rw [avg_foldl cpu r.entries 0 0]
    simp
  · show (exampleSparseReport.entries.foldl (avgStep "0") ((0 : ℚ), (0 : Nat))).1 /
      (((exampleSparseReport.entries.foldl (avgStep "0") ((0 : ℚ), (0 : Nat))).2 : Nat) : ℚ) = 50
    have h1 : exampleSparseReport.entries.foldl (avgStep "0") ((0 : ℚ), (0 : Nat)) =
        ((0 : ℚ) + 40 + 60, (0 + 1 + 1 : Nat)) := rfl
    rw [h1]
    norm_num

/-! ## Collector background reader and handoff (main.rs `process`,
lines 59-116): C8 and C9 -/

/-- Joint state of the collector's background reader task and the
`std::sync::mpsc` channel to the foreground driver (main.rs `process`):
`pending` is the rest of the sampler's output stream, `line` the accumulator
string, `count` the line counter `i`, `queue` the groups buffered inside the
channel, and `received` the groups the driver has taken so far. -/
structure CollectorState where
  pending : List String
  line : String
  count : Nat
  queue : List String
  received : List String
deriving DecidableEq

/-- One iteration of the background read loop (main.rs lines 72-82) with group
size `g` (`cores * 2 + PERF_ENTRY_ADDITIONAL_LINES`): `read_line` appends the
next stream line to the accumulator — at end of stream it appends nothing and
still returns `Ok(0)`, so the `else break` arm (taken only on a read error) is
not reached — the counter is incremented, and on every `g`-th count the
accumulated group is sent and the accumulator cleared.
`std::sync::mpsc::channel()` is asynchronous and infinitely buffered, so the
send appends to `queue` unconditionally and never blocks. -/
def bgReadStep (g : Nat) : CollectorState → CollectorState
  | ⟨l :: rest, line, i, q, r⟩ =>
    if (i + 1) % g = 0 then ⟨rest, "", i + 1, q ++ [line ++ l], r⟩
    else ⟨rest, line ++ l, i + 1, q, r⟩
  | ⟨[], line, i, q, r⟩ =>
    if (i + 1) % g = 0 then ⟨[], "", i + 1, q ++ [line], r⟩
    else ⟨[], line, i + 1, q, r⟩

/-- The two transitions of the collector: a background read iteration, or the
driver's blocking `recv` (main.rs line 92) taking the oldest queued group. -/
inductive CollectorStep (g : Nat) : CollectorState → CollectorState → Prop
  | bgRead (s : CollectorState) : CollectorStep g s (bgReadStep g s)
  | recv (s : CollectorState) (gr : String) (rest : List String) :
      s.queue = gr :: rest →
      CollectorStep g s
        { pending := s.pending, line := s.line, count := s.count, queue := rest,
          received := s.received ++ [gr] }

/-- Reachability under collector transitions. -/
def CollectorReach (g : Nat) : CollectorState → CollectorState → Prop :=
  Relation.ReflTransGen (CollectorStep g)

/-- State of the background loop right after the header lines were discarded:
the sampler's remaining output, an empty accumulator, `i = 0`, an empty
channel, nothing received yet. -/
def collectorInit (lines : List String) : CollectorState :=
  { pending := lines, line := "", count := 0, queue := [], received := [] }

/-- `n` consecutive background read iterations. -/
def bgRun (g : Nat) (s : CollectorState) : Nat → CollectorState
  | 0 => s
  | n + 1 => bgRun g (bgReadStep g s) n

theorem reach_bgRun (g : Nat) (s : CollectorState) (n : Nat) :
    CollectorReach g s (bgRun g s n) := by
  induction n generalizing s with
  | zero => exact Relation.ReflTransGen.refl
  | succ n ih =>
    exact Relation.ReflTransGen.head (CollectorStep.bgRead s) (ih (bgReadStep g s))

/-- C8 counterexample: with group size 2 and four pending sampler lines, four
background read iterations alone — the driver receiving nothing — leave two
complete flushed groups buffered in the channel at once, because
`mpsc::channel()` never blocks the sender.  Under the claim's single-slot
rendezvous at most one group could ever be buffered ahead of the driver. -/
theorem handoff_not_single_slot :
    CollectorReach 2 (collectorInit ["a", "b", "c", "d"])
      { pending := [], line := "", count := 4, queue := ["ab", "cd"], received := [] } ∧
    ¬ (∀ s, CollectorReach 2 (collectorInit ["a", "b", "c", "d"]) s →
        s.queue.length ≤ 1) := by
  have hrun : bgRun 2 (collectorInit ["a", "b", "c", "d"]) 4 =
      { pending := [], line := "", count := 4, queue := ["ab", "cd"], received := [] } := by
    decide
  have hreach := reach_bgRun 2 (collectorInit ["a", "b", "c", "d"]) 4
  rw [hrun] at hreach
  refine ⟨hreach, ?_⟩
  intro hall
  have hlen := hall _ hreach
  simp at hlen

theorem bgRun_pairs (n : Nat) : ∀ (k : Nat) (q r : List String),
    bgRun 2 { pending := List.replicate (2 * n) "x", line := "", count := 2 * k,
              queue := q, received := r } (2 * n) =
      { pending := [], line := "", count := 2 * k + 2 * n,
        queue := q ++ List.replicate n "xx", received := r } := by
  induction n with
  | zero => intro k q r; simp [bgRun]
  | succ n ih =>
    intro k q r
    have hrep : List.replicate (2 * (n + 1)) "x" =
        "x" :: "x" :: List.replicate (2 * n) "x" := by
      have h2 : 2 * (n + 1) = (2 * n) + 1 + 1 := by ring
      rw [h2, List.replicate_succ, List.replicate_succ]
    have hfuel : 2 * (n + 1) = (2 * n) + 1 + 1 := by ring
    rw [hrep, hfuel]
    have hunfold : ∀ s : CollectorState,
        bgRun 2 s ((2 * n) + 1 + 1) = bgRun 2 (bgReadStep 2 (bgReadStep 2 s)) (2 * n) :=
      fun s => rfl
    rw [hunfold]
    have hm1 : ¬ ((2 * k + 1) % 2 = 0) := by omega
    have hm2 : (2 * k + 1 + 1) % 2 = 0 := by omega
    have hstep1 : bgReadStep 2
        ({ pending := "x" :: "x" :: List.replicate (2 * n) "x", line := "",
           count := 2 * k, queue := q, received := r } : CollectorState) =
        { pending := "x" :: List.replicate (2 * n) "x", line := "x",
          count := 2 * k + 1, queue := q, received := r } := by
      simp [bgReadStep, hm1]
    have hstep2 : bgReadStep 2
        ({ pending := "x" :: List.replicate (2 * n) "x", line := "x",
           count := 2 * k + 1, queue := q, received := r } : CollectorState) =
        { pending := List.replicate (2 * n) "x", line := "",
          count := 2 * k + 1 + 1, queue := q ++ ["xx"], received := r } := by
      simp [bgReadStep, hm2]
    rw [hstep1, hstep2]
    have hcount : 2 * k + 1 + 1 = 2 * (k + 1) := by ring
    rw [hcount, ih (k + 1) (q ++ ["xx"]) r]
    have hq : (q ++ ["xx"]) ++ List.replicate n "xx" = q ++ List.replicate (n + 1) "xx" := by
      rw [List.append_assoc, List.replicate_succ]
      rfl
    rw [hq]
    congr 1
    omega

/-- C8 (amended): the background-to-foreground handoff is an unbounded
asynchronous channel — sending never blocks the background task — so for every
`n` the background task can run ahead until `n` flushed groups sit in the
channel while the driver has consumed none of them. -/
theorem handoff_unbounded_buffering (n : Nat) :
    ∃ s, CollectorReach 2 (collectorInit (List.replicate (2 * n) "x")) s ∧
      s.received = [] ∧ s.queue.length = n := by
  have h0 : collectorInit (List.replicate (2 * n) "x") =
      { pending := List.replicate (2 * n) "x", line := "", count := 2 * 0,
        queue := [], received := [] } := rfl
  refine ⟨bgRun 2 (collectorInit (List.replicate (2 * n) "x")) (2 * n),
    reach_bgRun _ _ _, ?_, ?_⟩
  · rw [h0, bgRun_pairs n 0 [] []]
  · rw [h0, bgRun_pairs n 0 [] []]
    simp

/-- C9 (code bug): with group size 2 and a sampler stream of three lines, the
third read consumes the last line; every later `read_line` observes end of
stream and returns `Ok(0)`, so the loop never takes its `else break` arm and
keeps counting and sending.  After six iterations the background task has
forwarded the stale partial group `"c"` and an empty group `""`, both sent
after the read that first observed end of stream — the claim says no further
group is ever sent. -/
theorem bg_reader_sends_after_eof :
    bgRun 2 (collectorInit ["a", "b", "c"]) 3 =
      { pending := [], line := "c", count := 3, queue := ["ab"], received := [] } ∧
    bgRun 2 (collectorInit ["a", "b", "c"]) 6 =
      { pending := [], line := "", count := 6, queue := ["ab", "c", ""], received := [] } ∧
    (bgRun 2 (collectorInit ["a", "b", "c"]) 3).queue.length <
      (bgRun 2 (collectorInit ["a", "b", "c"]) 6).queue.length := by
  refine ⟨by decide, by decide, by decide⟩
